import Mathlib

/-!
Verification of the pdf2zh translation pipeline.

Shallow embedding of the pipeline's pure core in Lean 4. JavaScript numbers
are modelled as rationals (`ℚ`), JS strings as `String` or `List Char`
(iteration with `for..of` walks code points, which matches `List Char`),
JS arrays as `List`, and fallible external calls as `Option`-valued
functions. Each definition mirrors one function of the source tree;
the source file and function are named in its doc comment.
-/

namespace Pdf2zh

/-- An axis-aligned rectangle, from src/main/pipeline/types.ts (BBox). -/
structure BBox where
  x : ℚ
  y : ℚ
  width : ℚ
  height : ℚ
deriving DecidableEq, Repr

/-- One positioned text run, from src/main/pipeline/types.ts (TextBlock). -/
structure TextBlock where
  text : String
  x : ℚ
  y : ℚ
  width : ℚ
  height : ℚ
  fontSize : ℚ
  fontName : String
deriving DecidableEq, Repr

/-- One layout detection, from src/main/pipeline/types.ts (LayoutBox).
The source stores `classId` as a JS number produced by `Math.round`, so an
integer (possibly negative) is the faithful model. -/
structure LayoutBox where
  bbox : BBox
  classId : ℤ
  className : String
  confidence : ℚ
deriving DecidableEq, Repr

/-- A matched region, from src/main/pipeline/types.ts (TranslatableRegion). -/
structure TranslatableRegion where
  layoutBox : LayoutBox
  textBlocks : List TextBlock
  fullText : String
  pdfBBox : BBox
deriving DecidableEq, Repr

/-- A translated region, from src/main/pipeline/types.ts (TranslatedRegion). -/
structure TranslatedRegion where
  layoutBox : LayoutBox
  textBlocks : List TextBlock
  fullText : String
  pdfBBox : BBox
  translatedText : String
deriving DecidableEq, Repr

/-- The ten layout class names in declaration order, from types.ts
(LAYOUT_CLASSES). -/
def LAYOUT_CLASSES : List String :=
  ["title", "plain_text", "abandon", "figure", "figure_caption",
   "table", "table_caption", "table_footnote", "isolate_formula",
   "formula_caption"]

/-- The translatable class names, from types.ts (TRANSLATABLE_CLASSES). -/
def TRANSLATABLE_CLASSES : List String :=
  ["title", "plain_text", "figure_caption", "table_caption",
   "table_footnote", "formula_caption"]

/-! ### Region matcher (src/main/pipeline/region-matcher.ts) -/

/-- Coordinate transform from PDF space to image space
(region-matcher.ts, pdfToImageCoords). -/
def pdfToImageCoords (pdfX pdfY pdfWidth pdfHeight pageHeight scale : ℚ) : BBox :=
  { x := pdfX * scale
    y := (pageHeight - pdfY - pdfHeight) * scale
    width := pdfWidth * scale
    height := pdfHeight * scale }

/-- Inclusive point-in-box test (region-matcher.ts, pointInBox). -/
def pointInBox (px py : ℚ) (box : BBox) : Prop :=
  box.x ≤ px ∧ px ≤ box.x + box.width ∧ box.y ≤ py ∧ py ≤ box.y + box.height

instance (px py : ℚ) (box : BBox) : Decidable (pointInBox px py box) :=
  inferInstanceAs (Decidable (_ ∧ _ ∧ _ ∧ _))

/-- The center-inside test matchRegions applies to every text block
(region-matcher.ts, lines 91-107). -/
def blockCenterInBox (pageHeight scale : ℚ) (lb : LayoutBox) (b : TextBlock) : Bool :=
  let imgCoords := pdfToImageCoords b.x b.y b.width b.height pageHeight scale
  let centerX := imgCoords.x + imgCoords.width / 2
  let centerY := imgCoords.y + imgCoords.height / 2
  decide (pointInBox centerX centerY lb.bbox)

/-- The reading-order comparator passed to `matched.sort`
(region-matcher.ts, lines 113-122). Returns a signed number as in JS.
The JS expression `a.fontSize || 10` falls back to 10 when `fontSize`
is the falsy number 0. -/
def readingCmp (pageHeight : ℚ) (a b : TextBlock) : ℚ :=
  let ay := pageHeight - a.y
  let b_y := pageHeight - b.y
  let lineDiff := |ay - b_y|
  if lineDiff < (if a.fontSize = 0 then 10 else a.fontSize) then a.x - b.x
  else ay - b_y

/-- The non-strict order induced by `readingCmp`: a sorts no later than b.
A stable sort by the JS comparator orders by this relation whenever the
comparator is consistent. -/
def readingLE (pageHeight : ℚ) (a b : TextBlock) : Prop :=
  readingCmp pageHeight a b ≤ 0

instance (pageHeight : ℚ) : DecidableRel (readingLE pageHeight) :=
  fun a b => inferInstanceAs (Decidable (readingCmp pageHeight a b ≤ 0))

/-- Tight PDF-space bounding box of matched blocks plus a 2pt margin
(region-matcher.ts, computeTextBBox). The source seeds the min/max folds
with plus or minus Infinity; on a nonempty list that fold equals the fold
seeded with the first element, which is how we model it (matchRegions
never calls this with an empty list). -/
def computeTextBBox : List TextBlock → BBox
  | [] => { x := 0, y := 0, width := 0, height := 0 }
  | b :: bs =>
    let minX := bs.foldl (fun m t => min m t.x) b.x
    let minY := bs.foldl (fun m t => min m t.y) b.y
    let maxX := bs.foldl (fun m t => max m (t.x + t.width)) (b.x + b.width)
    let maxY := bs.foldl (fun m t => max m (t.y + t.height)) (b.y + b.height)
    { x := minX - 2
      y := minY - 2
      width := maxX - minX + 2 * 2
      height := maxY - minY + 2 * 2 }

/-- JS `Array.prototype.join(' ')`. -/
def joinSpace : List String → String
  | [] => ""
  | s :: rest => rest.foldl (fun acc t => acc ++ " " ++ t) s

/-- The JS test `s.trim() === ''`: the string has no non-whitespace
character. -/
def isBlank (s : String) : Bool :=
  s.data.all (fun c => c.isWhitespace)

/-- Match text blocks to layout boxes (region-matcher.ts, matchRegions).
The in-place `matched.sort(comparator)` is modelled as a stable sort by
the comparator's non-strict order; ECMAScript guarantees exactly that for
a consistent comparator (for an inconsistent one the order is
implementation-defined). The loop's two `continue` branches become the
`none` branches of a `filterMap`. -/
def matchRegions (layoutBoxes : List LayoutBox) (textBlocks : List TextBlock)
    (pageHeight scale : ℚ) : List TranslatableRegion :=
  (layoutBoxes.filter (fun lb => TRANSLATABLE_CLASSES.contains lb.className)).filterMap
    (fun layoutBox =>
      let matched := textBlocks.filter (blockCenterInBox pageHeight scale layoutBox)
      if matched.length = 0 then none
      else
        let sorted := matched.insertionSort (readingLE pageHeight)
        let fullText := joinSpace (sorted.map (fun b => b.text))
        if isBlank fullText then none
        else some { layoutBox := layoutBox
                    textBlocks := sorted
                    fullText := fullText
                    pdfBBox := computeTextBBox sorted })

/-! ### PDF writer (src/main/pipeline/pdf-writer.ts) -/

/-- A font's width metric: `widthOfTextAtSize(testLine, fontSize)`.
The call may throw on a missing glyph, which we model as `none`
(pdf-writer.ts, lines 216-221). -/
def Font : Type := List Char → ℚ → Option ℚ

/-- Width of a candidate line: the font metric, or the
`0.5 * fontSize` per-character estimate when measuring throws
(pdf-writer.ts, lines 215-221). -/
def measureLine (font : Font) (testLine : List Char) (fontSize : ℚ) : ℚ :=
  match font testLine fontSize with
  | some w => w
  | none => (testLine.length : ℚ) * fontSize * (1 / 2)

/-- The character-by-character accumulator loop of `wrapText`
(pdf-writer.ts, lines 204-235), with `cur` the `currentLine` variable. -/
def wrapAux (font : Font) (fontSize maxWidth : ℚ) (cur : List Char) :
    List Char → List (List Char)
  | [] => if cur.isEmpty then [] else [cur]
  | c :: rest =>
    if c = '\n' then cur :: wrapAux font fontSize maxWidth [] rest
    else
      let testLine := cur ++ [c]
      if maxWidth < measureLine font testLine fontSize ∧ 0 < cur.length then
        cur :: wrapAux font fontSize maxWidth [c] rest
      else
        wrapAux font fontSize maxWidth testLine rest

/-- Wrap text to fit a width, character by character
(pdf-writer.ts, wrapText). Lines are `List Char` as the JS `for..of`
loop iterates code points. -/
def wrapText (text : List Char) (font : Font) (fontSize maxWidth : ℚ) :
    List (List Char) :=
  wrapAux font fontSize maxWidth [] text

/-- The MIN_FONT_SIZE constant of pdf-writer.ts. -/
def MIN_FONT_SIZE : ℚ := 6

/-- The auto-shrink loop of writePdf (pdf-writer.ts, lines 113-122):
while `fontSize > 6`, break if the wrapped text's total height
`lines * fontSize * 1.2` fits in `availH`, else decrement by 0.5. -/
def autoShrink (text : List Char) (font : Font) (availW availH : ℚ)
    (fontSize : ℚ) : ℚ :=
  if h : MIN_FONT_SIZE < fontSize then
    if ((wrapText text font fontSize availW).length : ℚ) * fontSize * (6 / 5) ≤ availH then
      fontSize
    else
      autoShrink text font availW availH (fontSize - 1 / 2)
  else fontSize
termination_by (⌈(fontSize - 6) * 2⌉).toNat
decreasing_by
  have h1 : (0 : ℚ) < (fontSize - 6) * 2 := by
    unfold MIN_FONT_SIZE at h; nlinarith
  have h2 : (1 : ℤ) ≤ ⌈(fontSize - 6) * 2⌉ := by
    have := Int.ceil_pos.mpr h1
    omega
  have h3 : (fontSize - 1 / 2 - 6) * 2 = (fontSize - 6) * 2 - 1 := by ring
  rw [h3, Int.ceil_sub_one]
  omega

/-- Whether a class name is one of the body classes pooled for the
uniform body font size (pdf-writer.ts, lines 61-65). -/
def isBodyClass (c : String) : Bool :=
  c == "plain_text" || c == "figure_caption" || c == "table_caption" ||
  c == "table_footnote" || c == "formula_caption"

/-- The `bodyFontSizes` array collected per page
(pdf-writer.ts, lines 59-70): fontSize of every text block of every
body-class region, in iteration order. -/
def bodyFontSizes (regions : List TranslatedRegion) : List ℚ :=
  regions.flatMap (fun r =>
    if isBodyClass r.layoutBox.className then r.textBlocks.map (fun b => b.fontSize)
    else [])

/-- The page's uniform body font size (pdf-writer.ts, lines 72-75):
sort ascending, take the element at index `floor(n / 2)`, fall back
to 10 on an empty pool. -/
def uniformBodySize (regions : List TranslatedRegion) : ℚ :=
  let sizes := (bodyFontSizes regions).insertionSort (fun a b => a ≤ b)
  if 0 < sizes.length then sizes.getD (sizes.length / 2) 0 else 10

/-- The target font size chosen for one region
(pdf-writer.ts, lines 95-107): titles use the mean of their own blocks'
fontSize (or the uniform size when a title has no blocks), body regions
use the uniform size. -/
def regionTargetFontSize (region : TranslatedRegion) (uniform : ℚ) : ℚ :=
  if region.layoutBox.className == "title" then
    let sizes := region.textBlocks.map (fun b => b.fontSize)
    if 0 < sizes.length then (sizes.foldl (fun a b => a + b) 0) / (sizes.length : ℚ)
    else uniform
  else uniform

/-- The font size at which a drawn region's text is finally wrapped
(pdf-writer.ts, lines 109-122): padding, available box, then the
auto-shrink loop starting at the target size. -/
def regionFinalFontSize (font : Font) (region : TranslatedRegion) (uniform : ℚ) : ℚ :=
  let targetFontSize := regionTargetFontSize region uniform
  let padding := max 2 (targetFontSize * (3 / 20))
  let availWidth := region.pdfBBox.width - padding * 2
  let availHeight := region.pdfBBox.height - padding * 2
  autoShrink region.translatedText.data font availWidth availHeight targetFontSize

/-! ### Annotation scrub (pdf-writer.ts, lines 144-188) -/

/-- One page annotation as the scrub loop sees it. `isLinkDict` is true
when the annotation is a dictionary whose `Subtype` is exactly `Link`
(lines 148-152); `rect` is the first four numbers of its `Rect` array
when that array exists and has at least four entries (lines 155-161),
else `none`. An annotation failing either lookup is skipped (survives). -/
structure Annot where
  isLinkDict : Bool
  rect : Option (ℚ × ℚ × ℚ × ℚ)
deriving DecidableEq, Repr

/-- Normalized annotation rectangle (pdf-writer.ts, lines 163-168). -/
def annotBoxOf (r : ℚ × ℚ × ℚ × ℚ) : BBox :=
  { x := min r.1 r.2.2.1
    y := min r.2.1 r.2.2.2
    width := |r.2.2.1 - r.1|
    height := |r.2.2.2 - r.2.1| }

/-- Strict AABB overlap test (pdf-writer.ts, lines 173-177). -/
def overlaps (a rb : BBox) : Prop :=
  a.x < rb.x + rb.width ∧ rb.x < a.x + a.width ∧
  a.y < rb.y + rb.height ∧ rb.y < a.y + a.height

instance (a rb : BBox) : Decidable (overlaps a rb) :=
  inferInstanceAs (Decidable (_ ∧ _ ∧ _ ∧ _))

/-- Whether the scrub loop marks an annotation for removal
(pdf-writer.ts, lines 147-182): a Link dictionary with a rectangle
overlapping some region's pdfBBox. -/
def shouldRemoveAnnot (regions : List TranslatedRegion) (a : Annot) : Bool :=
  a.isLinkDict &&
    match a.rect with
    | none => false
    | some r => regions.any (fun region => decide (overlaps (annotBoxOf r) region.pdfBBox))

/-- The dummy annotation used as an out-of-range default in the model;
it is never marked for removal, and the removal loop never reads out of
range anyway. -/
def noAnnot : Annot := { isLinkDict := false, rect := none }

/-- The `indicesToRemove` array (pdf-writer.ts, lines 146-183):
indices of marked annotations in ascending order. -/
def indicesToRemove (annots : List Annot) (regions : List TranslatedRegion) : List ℕ :=
  (List.range annots.length).filter (fun i =>
    shouldRemoveAnnot regions (annots.getD i noAnnot))

/-- The removal pass (pdf-writer.ts, lines 185-187): walk
`indicesToRemove` from the back, removing each index, so earlier
indices stay valid. -/
def scrubAnnots (annots : List Annot) (regions : List TranslatedRegion) : List Annot :=
  ((indicesToRemove annots regions).reverse).foldl (fun acc i => acc.eraseIdx i) annots

/-! ### Layout detector (src/main/pipeline/layout-detector.ts) -/

/-- The CONF_THRESHOLD constant of layout-detector.ts. -/
def CONF_THRESHOLD : ℚ := 1 / 4

/-- JS `Math.round`: round half toward positive infinity. -/
def jsRound (x : ℚ) : ℤ := ⌊x + 1 / 2⌋

/-- Class name for a class id: `LAYOUT_CLASSES[classId] || 'plain_text'`
(layout-detector.ts, lines 124 and 184); any index outside the array,
including a negative one, yields `undefined` and falls back. -/
def classNameOf (id : ℤ) : String :=
  if id < 0 then "plain_text" else LAYOUT_CLASSES.getD id.toNat "plain_text"

/-- Decode the post-NMS `[1, N, 6]` output format
(layout-detector.ts, lines 103-127). `rawData` is the flat output
tensor, indexed as in the source. -/
def decodePostNMS (rawData : ℕ → ℚ) (numRows : ℕ) (padX padY scale : ℚ) :
    List LayoutBox :=
  (List.range numRows).filterMap (fun i =>
    let off := i * 6
    let conf := rawData (off + 4)
    if conf < CONF_THRESHOLD then none
    else
      let x1 := (rawData (off + 0) - padX) / scale
      let y1 := (rawData (off + 1) - padY) / scale
      let x2 := (rawData (off + 2) - padX) / scale
      let y2 := (rawData (off + 3) - padY) / scale
      let classId := jsRound (rawData (off + 5))
      some { bbox := { x := max 0 x1, y := max 0 y1, width := x2 - x1, height := y2 - y1 }
             classId := classId
             className := classNameOf classId
             confidence := conf })

/-- The best-class scan of the raw-YOLO branch
(layout-detector.ts, lines 158-171): running max over class scores,
starting from `bestConf = 0`, `bestClassId = 0`. -/
def bestClass (score : ℕ → ℚ) (numClasses : ℕ) : ℕ × ℚ :=
  (List.range numClasses).foldl
    (fun acc c => let val := score c; if acc.2 < val then (c, val) else acc)
    (0, 0)

/-- Decode the raw YOLO output format (layout-detector.ts, lines 128-188),
including the transposition heuristic on the dims. -/
def decodeRaw (rawData : ℕ → ℚ) (numRows numCols : ℕ) (padX padY scale : ℚ) :
    List LayoutBox :=
  let numDetections := if numRows < numCols ∧ numRows ≤ 20 then numCols else numRows
  let numFields := if numRows < numCols ∧ numRows ≤ 20 then numRows else numCols
  let numClasses := numFields - 4
  (List.range numDetections).filterMap (fun i =>
    let field := fun j =>
      if numRows < numCols ∧ numRows ≤ 20 then rawData (j * numDetections + i)
      else rawData (i * numFields + j)
    let cx := field 0
    let cy := field 1
    let w := field 2
    let h := field 3
    let best := bestClass (fun c => field (4 + c)) numClasses
    if best.2 < CONF_THRESHOLD then none
    else
      let x1 := (cx - w / 2 - padX) / scale
      let y1 := (cy - h / 2 - padY) / scale
      some { bbox := { x := max 0 x1, y := max 0 y1, width := w / scale, height := h / scale }
             classId := (best.1 : ℤ)
             className := classNameOf (best.1 : ℤ)
             confidence := best.2 })

/-- The decoding stage of detectLayout (layout-detector.ts, lines 90-191):
dims of length other than 3 yield no boxes; a 6-column output takes the
post-NMS branch, anything else the raw branch. The inference call itself
is external; its output tensor is the `rawData` argument. -/
def detectLayout (dims : List ℕ) (rawData : ℕ → ℚ) (padX padY scale : ℚ) :
    List LayoutBox :=
  if dims.length = 3 then
    let numRows := dims.getD 1 0
    let numCols := dims.getD 2 0
    if numCols = 6 then decodePostNMS rawData numRows padX padY scale
    else decodeRaw rawData numRows numCols padX padY scale
  else []

/-! ### Translator usage accounting (src/main/pipeline/translator/llm.ts) -/

/-- Usage counters, from translator/index.ts (TranslatorUsage). -/
structure TranslatorUsage where
  inputTokens : ℚ
  outputTokens : ℚ
  totalCost : ℚ
deriving DecidableEq, Repr

/-- The usage object of one LLM response: `response.usage` may be absent,
and each of its fields may be absent (llm.ts, lines 76-80). -/
structure ResponseUsage where
  input : Option ℚ
  output : Option ℚ
  costTotal : Option ℚ
deriving DecidableEq, Repr

/-- The all-zero counters set by `resetUsage` (llm.ts, lines 32-36). -/
def resetUsageState : TranslatorUsage :=
  { inputTokens := 0, outputTokens := 0, totalCost := 0 }

/-- How one `translate` call updates the counters (llm.ts, lines 76-80):
nothing when the response has no usage, else add each field with a
fallback of 0 for absent fields. -/
def applyResponseUsage (s : TranslatorUsage) (u : Option ResponseUsage) :
    TranslatorUsage :=
  match u with
  | none => s
  | some r =>
    { inputTokens := s.inputTokens + r.input.getD 0
      outputTokens := s.outputTokens + r.output.getD 0
      totalCost := s.totalCost + r.costTotal.getD 0 }

/-- The counters after one `translateBatch` call whose responses carried
the given usages (llm.ts, lines 86-110): `resetUsage()` first, then each
`translate` accumulates. The incoming state is discarded by the reset. -/
def translateBatchUsage (_s : TranslatorUsage)
    (responses : List (Option ResponseUsage)) : TranslatorUsage :=
  responses.foldl applyResponseUsage resetUsageState

/-- Componentwise sum of two usage values. -/
def addUsage (a b : TranslatorUsage) : TranslatorUsage :=
  { inputTokens := a.inputTokens + b.inputTokens
    outputTokens := a.outputTokens + b.outputTokens
    totalCost := a.totalCost + b.totalCost }

/-- The usage one batch accumulates on its own (starting from zero). -/
def batchTotalUsage (responses : List (Option ResponseUsage)) : TranslatorUsage :=
  responses.foldl applyResponseUsage resetUsageState

/-- The usage `runPipeline` returns via `translator.getUsage?.()`
(index.ts, lines 174-176) for an LLM run whose pages produced the given
batches, in order: the translator's counters go through every
`translateBatch` call and the pipeline performs no accumulation of its
own. -/
def runPipelineUsage (batches : List (List (Option ResponseUsage))) :
    TranslatorUsage :=
  batches.foldl translateBatchUsage resetUsageState

/-! ### Translator batch shape

The Google variant (translator/google.ts, translateBatch) is a
sequential loop pushing one result per input. The LLM variant
(translator/llm.ts, translateBatch) spawns `min(5, texts.length)`
workers that drain a shared cursor `pos` into distinct `results` slots;
we model it as a small-step system over the shared state, one atomic
step per synchronous segment of a worker between awaits. -/

/-- Google translateBatch (google.ts, lines 18-30), with `f` the
underlying `translate` call (assumed to resolve; the 100 ms delay has no
effect on the value). The loop pushes `f text` for each text in order. -/
def googleTranslateBatch (f : String → String) (texts : List String) : List String :=
  texts.foldl (fun results text => results ++ [f text]) []

/-- The CONCURRENCY_LIMIT constant of llm.ts. -/
def CONCURRENCY_LIMIT : ℕ := 5

/-- Phase of one worker of the LLM batch pool: `start` before its first
cursor check, `holding i` after `queue[pos++]` handed it index `i` and
before its `translate` resolves, `done` after the cursor check failed. -/
inductive WorkerPhase where
  | start : WorkerPhase
  | holding : ℕ → WorkerPhase
  | done : WorkerPhase
deriving DecidableEq, Repr

/-- Shared state of one in-flight translateBatch call (llm.ts,
lines 91-107): the cursor `pos`, each worker's phase, and the `results`
array (a slot is `none` until written). -/
structure PoolState where
  pos : ℕ
  workers : List WorkerPhase
  results : List (Option String)
deriving DecidableEq, Repr

/-- One atomic step of worker `w` (llm.ts, lines 96-101). A `start`
worker runs the cursor check: grab `queue[pos++]` or finish. A `holding`
worker resumes from its await: write its slot, then run the cursor check.
A `done` worker has returned. `none` means worker `w` cannot step. -/
def poolStep (texts : List String) (f : String → String) (s : PoolState)
    (w : ℕ) : Option PoolState :=
  match s.workers[w]? with
  | none => none
  | some WorkerPhase.done => none
  | some WorkerPhase.start =>
    if s.pos < texts.length then
      some { pos := s.pos + 1
             workers := s.workers.set w (WorkerPhase.holding s.pos)
             results := s.results }
    else
      some { pos := s.pos, workers := s.workers.set w WorkerPhase.done
             results := s.results }
  | some (WorkerPhase.holding i) =>
    let written := s.results.set i (some (f (texts.getD i "")))
    if s.pos < texts.length then
      some { pos := s.pos + 1
             workers := s.workers.set w (WorkerPhase.holding s.pos)
             results := written }
    else
      some { pos := s.pos, workers := s.workers.set w WorkerPhase.done
             results := written }

/-- The scheduler relation: some worker takes a step. -/
def PoolStepRel (texts : List String) (f : String → String)
    (s s' : PoolState) : Prop :=
  ∃ w, poolStep texts f s w = some s'

/-- The initial state of translateBatch (llm.ts, lines 91-105):
cursor at 0, `min(CONCURRENCY_LIMIT, texts.length)` fresh workers,
`new Array(texts.length)` of unwritten slots. -/
def initPoolState (texts : List String) : PoolState :=
  { pos := 0
    workers := List.replicate (min CONCURRENCY_LIMIT texts.length) WorkerPhase.start
    results := List.replicate texts.length none }

/-- `Promise.all(workers)` has resolved: every worker is done. -/
def PoolFinished (s : PoolState) : Prop :=
  ∀ p ∈ s.workers, p = WorkerPhase.done

instance (s : PoolState) : Decidable (PoolFinished s) :=
  inferInstanceAs (Decidable (∀ p ∈ s.workers, p = WorkerPhase.done))

/-! ### Orchestrator progress schedule (src/main/pipeline/index.ts) -/

/-- The percent values the orchestrator reports for page `idx` (0-based)
of `n` processed pages (index.ts, lines 85-139): the page base
`10 + (idx / n) * 85`, then offsets `(85 / n) * {0.2, 0.4}`, and the
`* 0.6` translating event only when the page's region matching was
nonempty (a region-less page skips translation, lines 128-139). -/
def pagePercents (n : ℕ) (hasRegions : ℕ → Bool) (idx : ℕ) : List ℚ :=
  let base : ℚ := 10 + ((idx : ℚ) / (n : ℚ)) * 85
  [base, base + (85 / (n : ℚ)) * (1 / 5), base + (85 / (n : ℚ)) * (2 / 5)] ++
    (if hasRegions idx then [base + (85 / (n : ℚ)) * (3 / 5)] else [])

/-- The full percent sequence of a successful run over `n` processed
pages (index.ts, lines 45-172): 0 (load model), 5 (load PDF), the
per-page events, 95 (writing), 100 (complete). -/
def progressPercents (n : ℕ) (hasRegions : ℕ → Bool) : List ℚ :=
  [0, 5] ++ (List.range n).flatMap (pagePercents n hasRegions) ++ [95, 100]

/-- The spec-side definition of the median, written from the spec's word
"median" for comparison with the code's computation: sort ascending; an
odd count takes the middle element, an even count the mean of the two
middle elements. -/
def specMedian (l : List ℚ) : ℚ :=
  let s := l.insertionSort (fun a b => a ≤ b)
  if s.length % 2 = 1 then s.getD (s.length / 2) 0
  else (s.getD (s.length / 2 - 1) 0 + s.getD (s.length / 2) 0) / 2

/-- The inductive invariant of the LLM batch pool: worker and result
array lengths are fixed; the cursor never passes the end; slots at or
past the cursor are unwritten; every slot before the cursor is either
written with its own translation or claimed by a worker currently
holding that index; held indices lie below the cursor; and a worker can
only have finished after the cursor reached the end. -/
def PoolInv (texts : List String) (f : String → String) (s : PoolState) : Prop :=
  s.workers.length = min CONCURRENCY_LIMIT texts.length ∧
  s.results.length = texts.length ∧
  s.pos ≤ texts.length ∧
  (∀ i, s.pos ≤ i → i < texts.length → s.results[i]? = some none) ∧
  (∀ i, i < s.pos →
    s.results[i]? = some (some (f (texts.getD i ""))) ∨
      WorkerPhase.holding i ∈ s.workers) ∧
  (∀ i, WorkerPhase.holding i ∈ s.workers → i < s.pos) ∧
  (WorkerPhase.done ∈ s.workers → s.pos = texts.length)

/-! ### Concrete inputs used by counterexamples and witnesses -/

/-- Two batches, each carrying one response with usage (1, 1, 1). -/
def cexUsageBatches : List (List (Option ResponseUsage)) :=
  [[some { input := some 1, output := some 1, costTotal := some 1 }],
   [some { input := some 1, output := some 1, costTotal := some 1 }]]

/-- A font whose measurement always throws, so every width falls back to
the `0.5 * fontSize` per-character estimate. -/
def fallbackFont : Font := fun _ _ => none

/-- A body region whose single block has fontSize 6.3 and whose box is
too small for its four-character translation at that size. -/
def cexRegionShrink : TranslatedRegion :=
  { layoutBox :=
      { bbox := { x := 0, y := 0, width := 100, height := 100 }
        classId := 1, className := "plain_text", confidence := 1 }
    textBlocks := [{ text := "a", x := 0, y := 0, width := 10, height := 10
                     fontSize := 63 / 10, fontName := "" }]
    fullText := "a"
    pdfBBox := { x := 0, y := 0, width := 9, height := 9 }
    translatedText := "aaaa" }

/-- A page with one body region whose two blocks have fontSizes 10 and 20,
so the pooled size list has even length. -/
def cexRegionsMedian : List TranslatedRegion :=
  [{ layoutBox :=
      { bbox := { x := 0, y := 0, width := 1, height := 1 }
        classId := 1, className := "plain_text", confidence := 1 }
     textBlocks := [{ text := "a", x := 0, y := 0, width := 1, height := 1
                      fontSize := 10, fontName := "" },
                    { text := "b", x := 0, y := 0, width := 1, height := 1
                      fontSize := 20, fontName := "" }]
     fullText := "a b"
     pdfBBox := { x := 0, y := 0, width := 1, height := 1 }
     translatedText := "x" }]

/-- A page with one body region whose single block has fontSize 7
(an odd-sized pool). -/
def wRegionsMedian : List TranslatedRegion :=
  [{ layoutBox :=
      { bbox := { x := 0, y := 0, width := 1, height := 1 }
        classId := 1, className := "plain_text", confidence := 1 }
     textBlocks := [{ text := "a", x := 0, y := 0, width := 1, height := 1
                      fontSize := 7, fontName := "" }]
     fullText := "a"
     pdfBBox := { x := 0, y := 0, width := 1, height := 1 }
     translatedText := "x" }]

/-- One translated region covering the PDF-point square [0,10]². -/
def wRegionScrub : TranslatedRegion :=
  { layoutBox :=
      { bbox := { x := 0, y := 0, width := 10, height := 10 }
        classId := 1, className := "plain_text", confidence := 1 }
    textBlocks := [{ text := "a", x := 0, y := 0, width := 10, height := 10
                     fontSize := 10, fontName := "" }]
    fullText := "a"
    pdfBBox := { x := 0, y := 0, width := 10, height := 10 }
    translatedText := "x" }

/-- Page annotations for the scrub witness: an overlapping link (removed),
a non-overlapping link (survives), a non-link (survives), and a link
without a usable rectangle (survives). -/
def wAnnots : List Annot :=
  [{ isLinkDict := true, rect := some (2, 2, 4, 4) },
   { isLinkDict := true, rect := some (20, 20, 30, 25) },
   { isLinkDict := false, rect := some (0, 0, 5, 5) },
   { isLinkDict := true, rect := none }]

/-- A translatable layout box covering the image-pixel square [0,200]². -/
def cexLbOrder : LayoutBox :=
  { bbox := { x := 0, y := 0, width := 200, height := 200 }
    classId := 1, className := "plain_text", confidence := 1 }

/-- Block P of the reading-order counterexample: x = 10, top-down y = 10
(pageHeight 100), fontSize 10. -/
def cexP : TextBlock :=
  { text := "p", x := 10, y := 90, width := 4, height := 4, fontSize := 10, fontName := "" }

/-- Block Q: x = 5, top-down y = 18. Same line as P (|10 − 18| < 10) and
same line as R (|18 − 26| < 10), but not on P's line transitively. -/
def cexQ : TextBlock :=
  { text := "q", x := 5, y := 82, width := 4, height := 4, fontSize := 10, fontName := "" }

/-- Block R: x = 0, top-down y = 26. Not on the same line as P
(|10 − 26| ≥ 10). Together P, Q, R make the comparator cyclic. -/
def cexR : TextBlock :=
  { text := "r", x := 0, y := 74, width := 4, height := 4, fontSize := 10, fontName := "" }

/-- A translatable layout box covering the image-pixel square [0,100]². -/
def wLbOrder : LayoutBox :=
  { bbox := { x := 0, y := 0, width := 100, height := 100 }
    classId := 1, className := "plain_text", confidence := 1 }

/-- First block of the consistent reading-order witness: x = 0. -/
def wB1 : TextBlock :=
  { text := "a", x := 0, y := 700, width := 10, height := 10, fontSize := 10, fontName := "" }

/-- Second block of the consistent reading-order witness: x = 50,
same baseline as the first. -/
def wB2 : TextBlock :=
  { text := "b", x := 50, y := 700, width := 10, height := 10, fontSize := 10, fontName := "" }

/-- A one-detection post-NMS output row `[1, 1, 1, 1, 0.9, 0]`. -/
def wRawData : ℕ → ℚ := fun i => [(1 : ℚ), 1, 1, 1, 9 / 10, 0].getD i 0

/-- The box that row decodes to. -/
def wDetBox : LayoutBox :=
  { bbox := { x := 1, y := 1, width := 0, height := 0 }
    classId := 0, className := "title", confidence := 9 / 10 }

/-! ### Theorems -/

/-- The accumulator invariant of the wrap loop: flattening the lines the
loop still produces, appended after the current line, yields the pending
input minus its newlines. -/
theorem wrapAux_flatten (font : Font) (fontSize maxWidth : ℚ) :
    ∀ (t cur : List Char),
      (wrapAux font fontSize maxWidth cur t).flatten =
        cur ++ t.filter (fun c => c ≠ '\n') := by
  intro t
  induction t with
  | nil =>
    intro cur
    rw [wrapAux]
    by_cases h : cur.isEmpty
    · simp [h, List.isEmpty_iff.mp h]
    · simp [h]
  | cons c rest ih =>
    intro cur
    rw [wrapAux]
    by_cases hc : c = '\n'
    · simp only [if_pos hc, List.flatten_cons, ih]
      subst hc
      simp
    · simp only [if_neg hc]
      by_cases hw : maxWidth < measureLine font (cur ++ [c]) fontSize ∧ 0 < cur.length
      · simp only [if_pos hw, List.flatten_cons, ih]
        simp [List.filter_cons, hc]
      · simp only [if_neg hw, ih]
        simp [List.filter_cons, hc]

/-- Claim C10: for every input, font, font size and maximum width, the
concatenation of the lines returned by wrapText is the input text with
every newline character removed — wrapping loses, duplicates and
reorders nothing. -/
theorem wrapText_flatten (text : List Char) (font : Font) (fontSize maxWidth : ℚ) :
    (wrapText text font fontSize maxWidth).flatten =
      text.filter (fun c => c ≠ '\n') := by
  rw [wrapText, wrapAux_flatten]
  rfl

/-- Claim C1, counterexample: a run of two batches, each accumulating
usage (1, 1, 1), returns usage (1, 1, 1) — not the sum (2, 2, 2) over
the run's batches — because translateBatch resets the counters and the
pipeline never accumulates across batches. -/
theorem runPipelineUsage_cex :
    0 < cexUsageBatches.length ∧
      runPipelineUsage cexUsageBatches ≠
        (cexUsageBatches.map batchTotalUsage).foldl addUsage resetUsageState := by
  refine ⟨by decide, ?_⟩
  with_unfolding_all decide

/-- Claim C1 as amended: for a run that translates at least one batch,
the usage returned at the end of the run equals the usage accumulated by
the run's last translateBatch call alone (counters are reset at the
start of each batch and never summed across batches). -/
theorem runPipelineUsage_eq_last_batch
    (batches : List (List (Option ResponseUsage)))
    (last : List (Option ResponseUsage)) :
    runPipelineUsage (batches ++ [last]) = batchTotalUsage last := by
  rw [runPipelineUsage, List.foldl_append]
  rfl

/-- The class-name fallback always lands in the canonical list. -/
theorem classNameOf_mem (id : ℤ) : classNameOf id ∈ LAYOUT_CLASSES := by
  rw [classNameOf]
  split
  · decide
  · by_cases h : id.toNat < LAYOUT_CLASSES.length
    · rw [List.getD_eq_getElem _ _ h]
      exact List.get_mem _ _ h
    · rw [List.getD_eq_default _ _ (Nat.le_of_not_lt h)]
      decide

/-- A class id outside 0..9 falls back to plain_text. -/
theorem classNameOf_out_of_range (id : ℤ) (h : id < 0 ∨ 10 ≤ id) :
    classNameOf id = "plain_text" := by
  rw [classNameOf]
  rcases h with h | h
  · rw [if_pos h]
  · rw [if_neg (by omega)]
    have hlen : LAYOUT_CLASSES.length ≤ id.toNat := by
      have : (10 : ℕ) ≤ id.toNat := by omega
      simpa [LAYOUT_CLASSES] using this
    rw [List.getD_eq_default _ _ hlen]

/-- Every box of the post-NMS branch passes the confidence gate and
carries the fallback-mapped class name. -/
theorem decodePostNMS_mem (rawData : ℕ → ℚ) (numRows : ℕ) (padX padY scale : ℚ)
    (b : LayoutBox) (hb : b ∈ decodePostNMS rawData numRows padX padY scale) :
    CONF_THRESHOLD ≤ b.confidence ∧ ∃ id, b.classId = id ∧ b.className = classNameOf id := by
  rw [decodePostNMS] at hb
  obtain ⟨i, -, hsome⟩ := List.mem_filterMap.mp hb
  dsimp only at hsome
  split at hsome
  · exact Option.noConfusion hsome
  · rename_i hconf
    obtain rfl := Option.some_inj.mp hsome
    exact ⟨le_of_not_lt hconf, _, rfl, rfl⟩

/-- Every box of the raw-YOLO branch passes the confidence gate and
carries the fallback-mapped class name. -/
theorem decodeRaw_mem (rawData : ℕ → ℚ) (numRows numCols : ℕ) (padX padY scale : ℚ)
    (b : LayoutBox) (hb : b ∈ decodeRaw rawData numRows numCols padX padY scale) :
    CONF_THRESHOLD ≤ b.confidence ∧ ∃ id, b.classId = id ∧ b.className = classNameOf id := by
  rw [decodeRaw] at hb
  obtain ⟨i, -, hsome⟩ := List.mem_filterMap.mp hb
  dsimp only at hsome
  by_cases htr : numRows < numCols ∧ numRows ≤ 20
  · simp only [if_pos htr] at hsome
    split at hsome
    · exact Option.noConfusion hsome
    · rename_i hconf
      obtain rfl := Option.some_inj.mp hsome
      exact ⟨le_of_not_lt hconf, _, rfl, rfl⟩
  · simp only [if_neg htr] at hsome
    split at hsome
    · exact Option.noConfusion hsome
    · rename_i hconf
      obtain rfl := Option.some_inj.mp hsome
      exact ⟨le_of_not_lt hconf, _, rfl, rfl⟩

/-- Claim C8: every LayoutBox emitted by detectLayout, on both decoding
branches, has confidence at least 0.25, a className among the ten
canonical names, and any classId outside 0..9 is mapped to plain_text. -/
theorem detectLayout_invariant (dims : List ℕ) (rawData : ℕ → ℚ)
    (padX padY scale : ℚ) (b : LayoutBox)
    (hb : b ∈ detectLayout dims rawData padX padY scale) :
    CONF_THRESHOLD ≤ b.confidence ∧ b.className ∈ LAYOUT_CLASSES ∧
      ((b.classId < 0 ∨ 10 ≤ b.classId) → b.className = "plain_text") := by
  have key : CONF_THRESHOLD ≤ b.confidence ∧
      ∃ id, b.classId = id ∧ b.className = classNameOf id := by
    rw [detectLayout] at hb
    split at hb
    · dsimp only at hb
      split at hb
      · exact decodePostNMS_mem _ _ _ _ _ _ hb
      · exact decodeRaw_mem _ _ _ _ _ _ _ hb
    · exact absurd hb (List.not_mem_nil b)
  obtain ⟨hconf, id, hid, hname⟩ := key
  refine ⟨hconf, hname ▸ classNameOf_mem id, fun hout => ?_⟩
  rw [hname, classNameOf_out_of_range id (hid ▸ hout)]

/-- Witness for C8: the single detection of a concrete post-NMS output
with confidence 0.9 and class id 0 satisfies the invariant. -/
theorem detectLayout_invariant_witness :
    CONF_THRESHOLD ≤ wDetBox.confidence ∧ wDetBox.className ∈ LAYOUT_CLASSES ∧
      ((wDetBox.classId < 0 ∨ 10 ≤ wDetBox.classId) → wDetBox.className = "plain_text") :=
  detectLayout_invariant [1, 1, 6] wRawData 0 0 1 wDetBox
    (by with_unfolding_all decide)

/-- Claim C4, counterexample: a page whose body blocks have fontSizes
10 and 20. The code picks the element at index ⌊2/2⌋ = 1 of the sorted
pool, i.e. 20, while the median of {10, 20} is 15. -/
theorem uniformBodySize_median_cex :
    uniformBodySize cexRegionsMedian ≠ specMedian (bodyFontSizes cexRegionsMedian) := by
  with_unfolding_all decide

/-- Claim C4 as amended: the uniform body font size is the element at
index ⌊n/2⌋ of the ascending-sorted pool of body-class block fontSizes —
the true median when the pool's size is odd, the upper of the two middle
values when it is even — and 10 when the pool is empty. -/
theorem uniformBodySize_median (regions : List TranslatedRegion) :
    (bodyFontSizes regions = [] → uniformBodySize regions = 10) ∧
    ((bodyFontSizes regions).length % 2 = 1 →
      uniformBodySize regions = specMedian (bodyFontSizes regions)) ∧
    (bodyFontSizes regions ≠ [] →
      uniformBodySize regions =
        ((bodyFontSizes regions).insertionSort (fun a b => a ≤ b)).getD
          ((bodyFontSizes regions).length / 2) 0) := by
  have hlen : ((bodyFontSizes regions).insertionSort (fun a b => a ≤ b)).length =
      (bodyFontSizes regions).length := List.length_insertionSort _ _
  refine ⟨fun h => ?_, fun hodd => ?_, fun hne => ?_⟩
  · rw [uniformBodySize, h]
    rfl
  · have hpos : 0 < (bodyFontSizes regions).length := by omega
    rw [uniformBodySize, specMedian]
    rw [if_pos (by rw [hlen]; exact hpos), if_pos (by rw [hlen]; exact hodd), hlen]
  · have hpos : 0 < (bodyFontSizes regions).length := List.length_pos.mpr hne
    rw [uniformBodySize]
    rw [if_pos (by rw [hlen]; exact hpos), hlen]

/-- Witness for C4 as amended: an empty page falls back to 10, and an
odd pool (a single block of fontSize 7) yields the true median. -/
theorem uniformBodySize_median_witness :
    uniformBodySize [] = 10 ∧
      uniformBodySize wRegionsMedian = specMedian (bodyFontSizes wRegionsMedian) :=
  ⟨(uniformBodySize_median []).1 rfl,
   (uniformBodySize_median wRegionsMedian).2.1 (by with_unfolding_all decide)⟩

/-- The shrink loop either stops above 5.5 or returns its starting size
untouched: every decrement happens from a value above 6, so the result
can only drop to strictly above 5.5 unless the loop never ran. -/
theorem autoShrink_bound (text : List Char) (font : Font) (availW availH : ℚ) :
    ∀ fontSize : ℚ, 11 / 2 < autoShrink text font availW availH fontSize ∨
      autoShrink text font availW availH fontSize = fontSize := by
  intro fontSize
  induction fontSize using autoShrink.induct text font availW availH with
  | case1 fs h hfit =>
    rw [autoShrink, dif_pos h, if_pos hfit]
    have h6 : (6 : ℚ) < fs := h
    left; linarith
  | case2 fs h hfit ih =>
    rw [autoShrink, dif_pos h, if_neg hfit]
    rcases ih with ih | ih
    · exact Or.inl ih
    · have h6 : (6 : ℚ) < fs := h
      left; rw [ih]; linarith
  | case3 fs h =>
    exact Or.inr (by rw [autoShrink, dif_neg h])

/-- Claim C2 as amended: the auto-shrink loop always terminates (the
function is total), and the font size at which a region's text is
finally wrapped and drawn is either strictly greater than 5.5 or exactly
the region's target font size (the loop body never ran because the
target was already at most 6, or the text fit immediately). It is NOT
always at least 6. -/
theorem regionFinalFontSize_bound (font : Font) (region : TranslatedRegion)
    (uniform : ℚ) :
    11 / 2 < regionFinalFontSize font region uniform ∨
      regionFinalFontSize font region uniform = regionTargetFontSize region uniform := by
  unfold regionFinalFontSize
  exact autoShrink_bound _ _ _ _ _

/-- Claim C2, counterexample: a body region with target font size 6.3
whose text does not fit shrinks once to 5.8 and exits the loop, so the
text is wrapped and drawn at 5.8, which is below 6. -/
theorem regionFinalFontSize_cex :
    regionFinalFontSize fallbackFont cexRegionShrink (uniformBodySize [cexRegionShrink]) =
      29 / 5 ∧ (29 / 5 : ℚ) < MIN_FONT_SIZE := by
  have hu : uniformBodySize [cexRegionShrink] = 63 / 10 := by
    with_unfolding_all decide
  have ht : regionTargetFontSize cexRegionShrink (63 / 10) = 63 / 10 := by
    with_unfolding_all decide
  have hw1 : (wrapText (String.data "aaaa") fallbackFont (63 / 10) 5).length = 4 := by
    with_unfolding_all decide
  have hstep1 : autoShrink (String.data "aaaa") fallbackFont 5 5 (63 / 10) =
      autoShrink (String.data "aaaa") fallbackFont 5 5 (29 / 5) := by
    rw [autoShrink, dif_pos (show MIN_FONT_SIZE < 63 / 10 by unfold MIN_FONT_SIZE; norm_num)]
    rw [if_neg (by rw [hw1]; norm_num)]
    norm_num
  have hstep2 : autoShrink (String.data "aaaa") fallbackFont 5 5 (29 / 5) = 29 / 5 := by
    rw [autoShrink, dif_neg (show ¬MIN_FONT_SIZE < 29 / 5 by unfold MIN_FONT_SIZE; norm_num)]
  have hmain : regionFinalFontSize fallbackFont cexRegionShrink (63 / 10) =
      autoShrink (String.data "aaaa") fallbackFont
        (9 - max 2 (regionTargetFontSize cexRegionShrink (63 / 10) * (3 / 20)) * 2)
        (9 - max 2 (regionTargetFontSize cexRegionShrink (63 / 10) * (3 / 20)) * 2)
        (regionTargetFontSize cexRegionShrink (63 / 10)) := rfl
  rw [ht] at hmain
  rw [show max (2 : ℚ) (63 / 10 * (3 / 20)) = 2 from max_eq_left (by norm_num)] at hmain
  rw [show (9 : ℚ) - 2 * 2 = 5 by norm_num] at hmain
  refine ⟨?_, show (29 / 5 : ℚ) < 6 by norm_num⟩
  rw [hu, hmain, hstep1, hstep2]

/-- Erasing a batch of shifted indices below a kept head erases the
unshifted indices in the tail. -/
theorem foldl_eraseIdx_map_succ {α : Type} (J : List ℕ) :
    ∀ (a : α) (l : List α),
      (J.map Nat.succ).foldl (fun acc i => acc.eraseIdx i) (a :: l) =
        a :: J.foldl (fun acc i => acc.eraseIdx i) l := by
  induction J with
  | nil => intro a l; rfl
  | cons j J ih =>
    intro a l
    simp only [List.map_cons, List.foldl_cons]
    rw [show (a :: l).eraseIdx (Nat.succ j) = a :: l.eraseIdx j from rfl]
    exact ih a _

/-- Filtering a shifted index list is the shift of filtering by the
shifted predicate. -/
theorem filter_map_succ_eq {q : ℕ → Bool} {n : ℕ} :
    ((List.range n).map Nat.succ).filter q =
      ((List.range n).filter (fun i => q (Nat.succ i))).map Nat.succ := by
  rw [List.filter_map]; rfl

/-- Collecting the indices whose element satisfies `p` in ascending
order and then erasing them from the back is the same as filtering the
elements that do not satisfy `p`. -/
theorem foldl_eraseIdx_rev_eq_filter {α : Type} (p : α → Bool) (d : α) :
    ∀ l : List α,
      (((List.range l.length).filter (fun i => p (l.getD i d))).reverse).foldl
          (fun acc i => acc.eraseIdx i) l =
        l.filter (fun x => !(p x)) := by
  intro l
  induction l with
  | nil => rfl
  | cons a t ih =>
    have h0 : (a :: t).getD 0 d = a := rfl
    have hsucc : ∀ i ∈ List.range t.length,
        p ((a :: t).getD (Nat.succ i) d) = p (t.getD i d) := by
      intro i _
      rw [List.getD_cons_succ]
    rw [List.length_cons, List.range_succ_eq_map, List.filter_cons, h0,
      filter_map_succ_eq, List.filter_congr hsucc]
    by_cases hp : p a
    · rw [if_pos hp, List.reverse_cons, List.foldl_append]
      rw [show (((List.range t.length).filter (fun i => p (t.getD i d))).map Nat.succ).reverse =
          ((List.range t.length).filter (fun i => p (t.getD i d))).reverse.map Nat.succ from
        (List.map_reverse _ _).symm]
      rw [foldl_eraseIdx_map_succ, ih]
      rw [List.filter_cons, hp]
      rfl
    · rw [if_neg hp]
      rw [show (((List.range t.length).filter (fun i => p (t.getD i d))).map Nat.succ).reverse =
          ((List.range t.length).filter (fun i => p (t.getD i d))).reverse.map Nat.succ from
        (List.map_reverse _ _).symm]
      rw [foldl_eraseIdx_map_succ, ih]
      rw [List.filter_cons]
      simp [hp]

/-- The reverse-order removal pass is the same as keeping exactly the
annotations the loop did not mark. -/
theorem scrubAnnots_eq_filter (annots : List Annot) (regions : List TranslatedRegion) :
    scrubAnnots annots regions =
      annots.filter (fun a => !(shouldRemoveAnnot regions a)) := by
  rw [scrubAnnots, indicesToRemove]
  exact foldl_eraseIdx_rev_eq_filter (shouldRemoveAnnot regions) noAnnot annots

/-- Claim C5: after the writer scrubs a page, no surviving Link
annotation with a usable rectangle overlaps any of that page's region
boxes, under the strict AABB overlap test on the normalized rectangle. -/
theorem scrubAnnots_no_overlap (annots : List Annot)
    (regions : List TranslatedRegion) (a : Annot)
    (ha : a ∈ scrubAnnots annots regions) (hlink : a.isLinkDict = true)
    (r : ℚ × ℚ × ℚ × ℚ) (hr : a.rect = some r) :
    ∀ region ∈ regions, ¬overlaps (annotBoxOf r) region.pdfBBox := by
  rw [scrubAnnots_eq_filter] at ha
  have hp := (List.mem_filter.mp ha).2
  rw [Bool.not_eq_true'] at hp
  rw [shouldRemoveAnnot, hlink, Bool.true_and, hr] at hp
  dsimp only at hp
  intro region hreg hov
  have hany : (regions.any fun region =>
      decide (overlaps (annotBoxOf r) region.pdfBBox)) = true :=
    List.any_eq_true.mpr ⟨region, hreg, decide_eq_true hov⟩
  rw [hp] at hany
  exact Bool.false_ne_true hany

/-- Witness for C5: of four annotations over one region covering
[0,10]², the overlapping link is removed, and the surviving
non-overlapping link indeed overlaps no region box. -/
theorem scrubAnnots_no_overlap_witness :
    ¬overlaps (annotBoxOf (20, 20, 30, 25)) wRegionScrub.pdfBBox :=
  scrubAnnots_no_overlap wAnnots [wRegionScrub]
    { isLinkDict := true, rect := some (20, 20, 30, 25) }
    (by with_unfolding_all decide) rfl (20, 20, 30, 25) rfl
    wRegionScrub (List.mem_cons_self _ _)

/-- A min-fold over a list lands on one of its elements or the seed. -/
theorem foldl_min_mem (a : ℚ) (l : List ℚ) : l.foldl min a ∈ a :: l := by
  induction l generalizing a with
  | nil => simp
  | cons x xs ih =>
    rw [List.foldl_cons]
    rcases List.mem_cons.mp (ih (min a x)) with h | h
    · rcases min_choice a x with hm | hm
      · exact List.mem_cons.mpr (Or.inl (h.trans hm))
      · exact List.mem_cons.mpr (Or.inr (List.mem_cons.mpr (Or.inl (h.trans hm))))
    · exact List.mem_cons.mpr (Or.inr (List.mem_cons.mpr (Or.inr h)))

/-- A min-fold is a lower bound of the seed and every element. -/
theorem foldl_min_le (a : ℚ) (l : List ℚ) : ∀ x ∈ a :: l, l.foldl min a ≤ x := by
  induction l generalizing a with
  | nil =>
    intro x hx
    simp at hx
    simp [hx]
  | cons y ys ih =>
    intro x hx
    rw [List.foldl_cons]
    have hbase : ys.foldl min (min a y) ≤ min a y :=
      ih (min a y) (min a y) (List.mem_cons_self _ _)
    rcases List.mem_cons.mp hx with hxa | hx'
    · rw [hxa]
      exact le_trans hbase (min_le_left a y)
    · rcases List.mem_cons.mp hx' with hxy | hx''
      · rw [hxy]
        exact le_trans hbase (min_le_right a y)
      · exact ih (min a y) x (List.mem_cons_of_mem _ hx'')

/-- A max-fold over a list lands on one of its elements or the seed. -/
theorem foldl_max_mem (a : ℚ) (l : List ℚ) : l.foldl max a ∈ a :: l := by
  induction l generalizing a with
  | nil => simp
  | cons x xs ih =>
    rw [List.foldl_cons]
    rcases List.mem_cons.mp (ih (max a x)) with h | h
    · rcases max_choice a x with hm | hm
      · exact List.mem_cons.mpr (Or.inl (h.trans hm))
      · exact List.mem_cons.mpr (Or.inr (List.mem_cons.mpr (Or.inl (h.trans hm))))
    · exact List.mem_cons.mpr (Or.inr (List.mem_cons.mpr (Or.inr h)))

/-- A max-fold is an upper bound of the seed and every element. -/
theorem le_foldl_max (a : ℚ) (l : List ℚ) : ∀ x ∈ a :: l, x ≤ l.foldl max a := by
  induction l generalizing a with
  | nil =>
    intro x hx
    simp at hx
    simp [hx]
  | cons y ys ih =>
    intro x hx
    rw [List.foldl_cons]
    have hbase : max a y ≤ ys.foldl max (max a y) :=
      ih (max a y) (max a y) (List.mem_cons_self _ _)
    rcases List.mem_cons.mp hx with hxa | hx'
    · rw [hxa]
      exact le_trans (le_max_left a y) hbase
    · rcases List.mem_cons.mp hx' with hxy | hx''
      · rw [hxy]
        exact le_trans (le_max_right a y) hbase
      · exact ih (max a y) x (List.mem_cons_of_mem _ hx'')

/-- The projected min-fold used by computeTextBBox attains its value on
a block and bounds every block from below. -/
theorem foldl_min_proj (g : TextBlock → ℚ) (b : TextBlock) (bs : List TextBlock) :
    (∃ t ∈ b :: bs, g t = bs.foldl (fun m t => min m (g t)) (g b)) ∧
      (∀ t ∈ b :: bs, bs.foldl (fun m t => min m (g t)) (g b) ≤ g t) := by
  have hfold : bs.foldl (fun m t => min m (g t)) (g b) = (bs.map g).foldl min (g b) :=
    (List.foldl_map g min bs (g b)).symm
  constructor
  · have hmem := foldl_min_mem (g b) (bs.map g)
    rw [← hfold] at hmem
    rcases List.mem_cons.mp hmem with h | h
    · exact ⟨b, List.mem_cons_self _ _, h.symm⟩
    · obtain ⟨t, ht, hte⟩ := List.mem_map.mp h
      exact ⟨t, List.mem_cons_of_mem _ ht, hte⟩
  · intro t ht
    rw [hfold]
    apply foldl_min_le (g b) (bs.map g)
    rcases List.mem_cons.mp ht with rfl | ht'
    · exact List.mem_cons_self _ _
    · exact List.mem_cons_of_mem _ (List.mem_map_of_mem g ht')

/-- The projected max-fold used by computeTextBBox attains its value on
a block and bounds every block from above. -/
theorem foldl_max_proj (g : TextBlock → ℚ) (b : TextBlock) (bs : List TextBlock) :
    (∃ t ∈ b :: bs, g t = bs.foldl (fun m t => max m (g t)) (g b)) ∧
      (∀ t ∈ b :: bs, g t ≤ bs.foldl (fun m t => max m (g t)) (g b)) := by
  have hfold : bs.foldl (fun m t => max m (g t)) (g b) = (bs.map g).foldl max (g b) :=
    (List.foldl_map g max bs (g b)).symm
  constructor
  · have hmem := foldl_max_mem (g b) (bs.map g)
    rw [← hfold] at hmem
    rcases List.mem_cons.mp hmem with h | h
    · exact ⟨b, List.mem_cons_self _ _, h.symm⟩
    · obtain ⟨t, ht, hte⟩ := List.mem_map.mp h
      exact ⟨t, List.mem_cons_of_mem _ ht, hte⟩
  · intro t ht
    rw [hfold]
    apply le_foldl_max (g b) (bs.map g)
    rcases List.mem_cons.mp ht with rfl | ht'
    · exact List.mem_cons_self _ _
    · exact List.mem_cons_of_mem _ (List.mem_map_of_mem g ht')

/-- Inversion of matchRegions: every emitted region comes from a
translatable layout box whose matched block list is nonempty, carries
that list in sorted order, and derives its pdfBBox from it. -/
theorem mem_matchRegions {lbs : List LayoutBox} {tbs : List TextBlock}
    {ph sc : ℚ} {region : TranslatableRegion}
    (hr : region ∈ matchRegions lbs tbs ph sc) :
    ∃ lb, (tbs.filter (blockCenterInBox ph sc lb)).length ≠ 0 ∧
      region.textBlocks =
        (tbs.filter (blockCenterInBox ph sc lb)).insertionSort (readingLE ph) ∧
      region.pdfBBox = computeTextBBox region.textBlocks := by
  rw [matchRegions] at hr
  obtain ⟨lb, _, hsome⟩ := List.mem_filterMap.mp hr
  dsimp only at hsome
  split at hsome
  · exact Option.noConfusion hsome
  · rename_i hne
    split at hsome
    · exact Option.noConfusion hsome
    · obtain rfl := Option.some_inj.mp hsome
      exact ⟨lb, hne, rfl, rfl⟩

/-- Claim C7: every region matchRegions returns has a nonempty block
list, and its pdfBBox is the tight union of the matched blocks'
PDF-space rectangles grown by exactly 2 points on every side. -/
theorem matchRegions_pdfBBox (lbs : List LayoutBox) (tbs : List TextBlock)
    (ph sc : ℚ) (region : TranslatableRegion)
    (hr : region ∈ matchRegions lbs tbs ph sc) :
    region.textBlocks ≠ [] ∧
    ∃ mx my Mx My,
      (∃ b ∈ region.textBlocks, b.x = mx) ∧
      (∀ b ∈ region.textBlocks, mx ≤ b.x) ∧
      (∃ b ∈ region.textBlocks, b.y = my) ∧
      (∀ b ∈ region.textBlocks, my ≤ b.y) ∧
      (∃ b ∈ region.textBlocks, b.x + b.width = Mx) ∧
      (∀ b ∈ region.textBlocks, b.x + b.width ≤ Mx) ∧
      (∃ b ∈ region.textBlocks, b.y + b.height = My) ∧
      (∀ b ∈ region.textBlocks, b.y + b.height ≤ My) ∧
      region.pdfBBox =
        { x := mx - 2, y := my - 2
          width := Mx - mx + 2 * 2, height := My - my + 2 * 2 } := by
  obtain ⟨lb, hne, hblocks, hbbox⟩ := mem_matchRegions hr
  have hnil : region.textBlocks ≠ [] := by
    rw [hblocks]
    intro hcon
    exact hne (by simpa using congrArg List.length hcon)
  refine ⟨hnil, ?_⟩
  obtain ⟨b, bs, hcons⟩ := List.exists_cons_of_ne_nil hnil
  rw [hcons] at hbbox ⊢
  rw [computeTextBBox] at hbbox
  exact ⟨bs.foldl (fun m t => min m t.x) b.x,
    bs.foldl (fun m t => min m t.y) b.y,
    bs.foldl (fun m t => max m (t.x + t.width)) (b.x + b.width),
    bs.foldl (fun m t => max m (t.y + t.height)) (b.y + b.height),
    (foldl_min_proj (fun t => t.x) b bs).1,
    (foldl_min_proj (fun t => t.x) b bs).2,
    (foldl_min_proj (fun t => t.y) b bs).1,
    (foldl_min_proj (fun t => t.y) b bs).2,
    (foldl_max_proj (fun t => t.x + t.width) b bs).1,
    (foldl_max_proj (fun t => t.x + t.width) b bs).2,
    (foldl_max_proj (fun t => t.y + t.height) b bs).1,
    (foldl_max_proj (fun t => t.y + t.height) b bs).2,
    hbbox⟩

set_option maxRecDepth 8000 in
/-- Witness for C7: a region matched from two side-by-side blocks on one
line has nonempty blocks and the 2-point-expanded tight union box. -/
theorem matchRegions_pdfBBox_witness :
    ({ layoutBox := wLbOrder, textBlocks := [wB1, wB2], fullText := "a b"
       pdfBBox := { x := -2, y := 698, width := 64, height := 14 } } :
        TranslatableRegion).textBlocks ≠ [] ∧
    ∃ mx my Mx My,
      (∃ b ∈ [wB1, wB2], b.x = mx) ∧ (∀ b ∈ [wB1, wB2], mx ≤ b.x) ∧
      (∃ b ∈ [wB1, wB2], b.y = my) ∧ (∀ b ∈ [wB1, wB2], my ≤ b.y) ∧
      (∃ b ∈ [wB1, wB2], b.x + b.width = Mx) ∧
      (∀ b ∈ [wB1, wB2], b.x + b.width ≤ Mx) ∧
      (∃ b ∈ [wB1, wB2], b.y + b.height = My) ∧
      (∀ b ∈ [wB1, wB2], b.y + b.height ≤ My) ∧
      ({ x := -2, y := 698, width := 64, height := 14 } : BBox) =
        { x := mx - 2, y := my - 2, width := Mx - mx + 2 * 2
          height := My - my + 2 * 2 } :=
  matchRegions_pdfBBox [wLbOrder] [wB1, wB2] 792 1
    { layoutBox := wLbOrder, textBlocks := [wB1, wB2], fullText := "a b"
      pdfBBox := { x := -2, y := 698, width := 64, height := 14 } }
    (by with_unfolding_all decide)

/-- Ordered insertion preserves pairwise sortedness when the relation
is total and transitive on the elements involved (it need not be so
globally — the JS comparator is not). -/
theorem pairwise_orderedInsert_local {α : Type} (r : α → α → Prop) [DecidableRel r]
    (a : α) :
    ∀ l : List α,
      (∀ b ∈ l, r a b ∨ r b a) →
      (∀ x ∈ a :: l, ∀ y ∈ a :: l, ∀ z ∈ a :: l, r x y → r y z → r x z) →
      l.Pairwise r → (l.orderedInsert r a).Pairwise r := by
  intro l
  induction l with
  | nil =>
    intro _ _ _
    simp
  | cons b t ih =>
    intro htot htrans hl
    rw [List.orderedInsert]
    by_cases hab : r a b
    · rw [if_pos hab]
      refine List.pairwise_cons.mpr ⟨?_, hl⟩
      intro y hy
      rcases List.mem_cons.mp hy with hyb | hyt
      · rw [hyb]; exact hab
      · have hby : r b y := (List.pairwise_cons.mp hl).1 y hyt
        exact htrans a (List.mem_cons_self _ _)
          b (List.mem_cons_of_mem _ (List.mem_cons_self _ _))
          y (List.mem_cons_of_mem _ (List.mem_cons_of_mem _ hyt)) hab hby
    · rw [if_neg hab]
      have hba : r b a := (htot b (List.mem_cons_self _ _)).resolve_left hab
      refine List.pairwise_cons.mpr ⟨?_, ?_⟩
      · intro y hy
        rcases (List.mem_orderedInsert _).mp hy with hya | hyt
        · rw [hya]; exact hba
        · exact (List.pairwise_cons.mp hl).1 y hyt
      · have lift : ∀ w, w ∈ a :: t → w ∈ a :: b :: t := by
          intro w hw
          rcases List.mem_cons.mp hw with h | h
          · exact List.mem_cons.mpr (Or.inl h)
          · exact List.mem_cons_of_mem _ (List.mem_cons_of_mem _ h)
        refine ih ?_ ?_ (List.pairwise_cons.mp hl).2
        · intro c hc
          exact htot c (List.mem_cons_of_mem _ hc)
        · intro x hx y hy z hz
          exact htrans x (lift x hx) y (lift y hy) z (lift z hz)

/-- Insertion sort yields a pairwise-sorted list whenever the relation
is total and transitive on the input's elements. -/
theorem pairwise_insertionSort_local {α : Type} (r : α → α → Prop) [DecidableRel r] :
    ∀ l : List α,
      (∀ a ∈ l, ∀ b ∈ l, r a b ∨ r b a) →
      (∀ a ∈ l, ∀ b ∈ l, ∀ c ∈ l, r a b → r b c → r a c) →
      (l.insertionSort r).Pairwise r := by
  intro l
  induction l with
  | nil =>
    intro _ _
    simp
  | cons a t ih =>
    intro htot htrans
    rw [List.insertionSort]
    have lift : ∀ w, w ∈ a :: t.insertionSort r → w ∈ a :: t := by
      intro w hw
      rcases List.mem_cons.mp hw with h | h
      · exact List.mem_cons.mpr (Or.inl h)
      · exact List.mem_cons_of_mem _ ((List.mem_insertionSort r).mp h)
    apply pairwise_orderedInsert_local
    · intro b hb
      exact htot a (List.mem_cons_self _ _)
        b (List.mem_cons_of_mem _ ((List.mem_insertionSort r).mp hb))
    · intro x hx y hy z hz
      exact htrans x (lift x hx) y (lift y hy) z (lift z hz)
    · refine ih ?_ ?_
      · intro x hx y hy
        exact htot x (List.mem_cons_of_mem _ hx) y (List.mem_cons_of_mem _ hy)
      · intro x hx y hy z hz
        exact htrans x (List.mem_cons_of_mem _ hx) y (List.mem_cons_of_mem _ hy)
          z (List.mem_cons_of_mem _ hz)

/-- When the comparator is consistent on the page's text blocks, every
region's block list is pairwise ordered by it. -/
theorem matchRegions_pairwise {lbs : List LayoutBox} {tbs : List TextBlock}
    {ph sc : ℚ} {region : TranslatableRegion}
    (htot : ∀ a ∈ tbs, ∀ b ∈ tbs, readingLE ph a b ∨ readingLE ph b a)
    (htrans : ∀ a ∈ tbs, ∀ b ∈ tbs, ∀ c ∈ tbs,
      readingLE ph a b → readingLE ph b c → readingLE ph a c)
    (hr : region ∈ matchRegions lbs tbs ph sc) :
    region.textBlocks.Pairwise (readingLE ph) := by
  obtain ⟨lb, -, hblocks, -⟩ := mem_matchRegions hr
  rw [hblocks]
  refine pairwise_insertionSort_local _ _ ?_ ?_
  · intro a ha b hb
    exact htot a (List.mem_of_mem_filter ha) b (List.mem_of_mem_filter hb)
  · intro a ha b hb c hc
    exact htrans a (List.mem_of_mem_filter ha) b (List.mem_of_mem_filter hb)
      c (List.mem_of_mem_filter hc)

/-- Claim C3 as amended: when the reading-order comparator is total and
transitive on the page's text blocks (it is not on every page — see the
counterexample), then in every region matchRegions returns, any block
that appears before another block lying on the same visual line by the
earlier block's tolerance has the smaller-or-equal x coordinate. -/
theorem matchRegions_reading_order (lbs : List LayoutBox) (tbs : List TextBlock)
    (ph sc : ℚ)
    (htot : ∀ a ∈ tbs, ∀ b ∈ tbs, readingLE ph a b ∨ readingLE ph b a)
    (htrans : ∀ a ∈ tbs, ∀ b ∈ tbs, ∀ c ∈ tbs,
      readingLE ph a b → readingLE ph b c → readingLE ph a c)
    (region : TranslatableRegion) (hr : region ∈ matchRegions lbs tbs ph sc)
    (i j : Fin region.textBlocks.length) (hij : i < j)
    (hline : |(ph - (region.textBlocks.get i).y) - (ph - (region.textBlocks.get j).y)| <
      (if (region.textBlocks.get i).fontSize = 0 then 10
       else (region.textBlocks.get i).fontSize)) :
    (region.textBlocks.get i).x ≤ (region.textBlocks.get j).x := by
  have hpw := matchRegions_pairwise htot htrans hr
  have hle : readingLE ph (region.textBlocks.get i) (region.textBlocks.get j) :=
    List.pairwise_iff_get.mp hpw i j hij
  rw [readingLE, readingCmp] at hle
  rw [if_pos hline] at hle
  linarith

set_option maxRecDepth 8000 in
/-- Claim C3, counterexample: three blocks P, Q, R whose same-line
relation is cyclic (P with Q, Q with R, but not P with R) sort to
[P, R, Q]: P appears before Q, they are on the same visual line by P's
fontSize, yet Q has the strictly smaller x. -/
theorem matchRegions_reading_order_cex :
    ∃ region ∈ matchRegions [cexLbOrder] [cexP, cexQ, cexR] 100 1,
      region.textBlocks.length = 3 ∧
      region.textBlocks.getD 0 cexP = cexP ∧
      region.textBlocks.getD 2 cexP = cexQ ∧
      |(100 - cexP.y) - (100 - cexQ.y)| <
        (if cexP.fontSize = 0 then 10 else cexP.fontSize) ∧
      cexQ.x < cexP.x := by
  with_unfolding_all decide

set_option maxRecDepth 8000 in
/-- Witness for C3 as amended: two blocks on one baseline with a
consistent comparator come out in ascending x order. -/
theorem matchRegions_reading_order_witness : wB1.x ≤ wB2.x :=
  matchRegions_reading_order [wLbOrder] [wB1, wB2] 792 1
    (by with_unfolding_all decide) (by with_unfolding_all decide)
    { layoutBox := wLbOrder, textBlocks := [wB1, wB2], fullText := "a b"
      pdfBBox := { x := -2, y := 698, width := 64, height := 14 } }
    (by with_unfolding_all decide)
    ⟨0, by decide⟩ ⟨1, by decide⟩ (by decide)
    (by with_unfolding_all decide)

/-- Every percent a page reports sits between that page's base and its
base plus 0.6 of a page's share. -/
theorem pagePercents_bounds (n : ℕ) (hr : ℕ → Bool) (idx : ℕ) (hidx : idx < n) :
    ∀ x ∈ pagePercents n hr idx,
      10 + ((idx : ℚ) / (n : ℚ)) * 85 ≤ x ∧
        x ≤ 10 + ((idx : ℚ) / (n : ℚ)) * 85 + (85 / (n : ℚ)) * (3 / 5) := by
  have hn : (0 : ℚ) < (n : ℚ) := by
    exact_mod_cast Nat.lt_of_le_of_lt (Nat.zero_le idx) hidx
  have hK : (0 : ℚ) ≤ 85 / (n : ℚ) := by positivity
  intro x hx
  rw [pagePercents] at hx
  by_cases h : hr idx
  · rw [if_pos h] at hx
    simp only [List.cons_append, List.nil_append, List.mem_cons,
      List.not_mem_nil, or_false] at hx
    rcases hx with rfl | rfl | rfl | rfl <;> constructor <;> nlinarith [hK]
  · rw [if_neg h] at hx
    simp only [List.append_nil, List.mem_cons, List.not_mem_nil, or_false] at hx
    rcases hx with rfl | rfl | rfl <;> constructor <;> nlinarith [hK]

/-- The percents of one page are non-decreasing in emission order. -/
theorem pagePercents_chain (n : ℕ) (hr : ℕ → Bool) (idx : ℕ) (hidx : idx < n) :
    (pagePercents n hr idx).Chain' (· ≤ ·) := by
  have hn : (0 : ℚ) < (n : ℚ) := by
    exact_mod_cast Nat.lt_of_le_of_lt (Nat.zero_le idx) hidx
  have hK : (0 : ℚ) ≤ 85 / (n : ℚ) := by positivity
  rw [pagePercents]
  by_cases h : hr idx
  · rw [if_pos h]
    simp only [List.cons_append, List.nil_append, List.chain'_cons,
      List.chain'_singleton, and_true]
    refine ⟨by nlinarith [hK], by nlinarith [hK], by nlinarith [hK]⟩
  · rw [if_neg h]
    simp only [List.append_nil, List.chain'_cons, List.chain'_singleton, and_true]
    refine ⟨by nlinarith [hK], by nlinarith [hK]⟩

/-- Concatenating per-index percent runs in index order stays
non-decreasing when each run is and runs do not overlap in value. -/
theorem chain_flatMap_of_bounds (g : ℕ → List ℚ) (lo hi : ℕ → ℚ) (n : ℕ)
    (hchain : ∀ i, i < n → (g i).Chain' (· ≤ ·))
    (hbound : ∀ i, i < n → ∀ x ∈ g i, lo i ≤ x ∧ x ≤ hi i)
    (hstep : ∀ i j, i < j → j < n → hi i ≤ lo j) :
    ((List.range n).flatMap g).Chain' (· ≤ ·) := by
  induction n with
  | zero => simp
  | succ m ih =>
    rw [List.range_succ m, List.flatMap_append]
    apply List.Chain'.append
    · refine ih (fun i hi => hchain i (Nat.lt_succ_of_lt hi))
        (fun i hi => hbound i (Nat.lt_succ_of_lt hi))
        (fun i j hij hj => hstep i j hij (Nat.lt_succ_of_lt hj))
    · simpa using hchain m (Nat.lt_succ_self m)
    · intro x hx y hy
      have hxl : x ∈ (List.range m).flatMap g := List.mem_of_mem_getLast? hx
      have hyl : y ∈ ([m] : List ℕ).flatMap g := List.mem_of_mem_head? hy
      obtain ⟨i, hmem, hxi⟩ := List.mem_flatMap.mp hxl
      have him : i < m := List.mem_range.mp hmem
      have hym : y ∈ g m := by simpa using hyl
      calc x ≤ hi i := (hbound i (Nat.lt_succ_of_lt him) x hxi).2
        _ ≤ lo m := hstep i m him (Nat.lt_succ_self m)
        _ ≤ y := (hbound m (Nat.lt_succ_self m) y hym).1

/-- A page's percent run is a prefix of the run it would emit if the
page also had a translation stage. -/
theorem pagePercents_sublist (n : ℕ) (hr : ℕ → Bool) (idx : ℕ) :
    List.Sublist (pagePercents n hr idx) (pagePercents n (fun _ => true) idx) := by
  rw [pagePercents, pagePercents]
  apply List.Sublist.append (List.Sublist.refl _)
  by_cases h : hr idx
  · rw [if_pos h]
    simp
  · rw [if_neg h]
    simp

/-- Pointwise sublists flatMap to sublists. -/
theorem flatMap_sublist {f g : ℕ → List ℚ}
    (h : ∀ i, List.Sublist (f i) (g i)) :
    ∀ l : List ℕ, List.Sublist (l.flatMap f) (l.flatMap g) := by
  intro l
  induction l with
  | nil => simp
  | cons a t ih =>
    rw [List.flatMap_cons, List.flatMap_cons]
    exact List.Sublist.append (h a) ih

/-- Claim C9: on a successful run the reported percent sequence is
non-decreasing step by step, starts at 0, ends at 100, and is the
0, 5, per-page-staged, 95, 100 schedule — a sublist of the full
schedule, since a page without regions skips its translation event. -/
theorem runPipeline_progress (n : ℕ) (hasRegions : ℕ → Bool) :
    (progressPercents n hasRegions).Chain' (fun a b => a ≤ b) ∧
    (progressPercents n hasRegions).head? = some 0 ∧
    (progressPercents n hasRegions).getLast? = some 100 ∧
    List.Sublist (progressPercents n hasRegions)
      (progressPercents n (fun _ => true)) := by
  have hmid : ∀ x ∈ (List.range n).flatMap (pagePercents n hasRegions),
      10 ≤ x ∧ x ≤ 95 := by
    intro x hx
    obtain ⟨i, hmem, hxi⟩ := List.mem_flatMap.mp hx
    have hin : i < n := List.mem_range.mp hmem
    have hn : (0 : ℚ) < (n : ℚ) := by
      exact_mod_cast Nat.lt_of_le_of_lt (Nat.zero_le i) hin
    obtain ⟨hlo, hhi⟩ := pagePercents_bounds n hasRegions i hin x hxi
    have hi1 : (i : ℚ) + 1 ≤ (n : ℚ) := by exact_mod_cast hin
    constructor
    · have hp : (0 : ℚ) ≤ (i : ℚ) / (n : ℚ) * 85 := by positivity
      linarith
    · have key : ((i : ℚ) / (n : ℚ)) * 85 + (85 / (n : ℚ)) * (3 / 5) ≤ 85 := by
        rw [div_mul_eq_mul_div, div_mul_eq_mul_div, div_add_div_same,
          div_le_iff₀ hn]
        nlinarith [hi1]
      linarith
  have hstep : ∀ i j : ℕ, i < j → j < n →
      10 + ((i : ℚ) / (n : ℚ)) * 85 + (85 / (n : ℚ)) * (3 / 5) ≤
        10 + ((j : ℚ) / (n : ℚ)) * 85 := by
    intro i j hij hjn
    have hn : (0 : ℚ) < (n : ℚ) := by
      exact_mod_cast Nat.lt_of_le_of_lt (Nat.zero_le j) hjn
    have hij1 : (i : ℚ) + 1 ≤ (j : ℚ) := by exact_mod_cast hij
    have key : ((i : ℚ) * 85 + 85 * (3 / 5)) / (n : ℚ) ≤ (j : ℚ) * 85 / (n : ℚ) := by
      gcongr
      nlinarith [hij1]
    calc 10 + ((i : ℚ) / (n : ℚ)) * 85 + (85 / (n : ℚ)) * (3 / 5)
        = 10 + ((i : ℚ) * 85 + 85 * (3 / 5)) / (n : ℚ) := by
          rw [div_mul_eq_mul_div, div_mul_eq_mul_div, add_assoc, div_add_div_same]
      _ ≤ 10 + (j : ℚ) * 85 / (n : ℚ) := by linarith
      _ = 10 + ((j : ℚ) / (n : ℚ)) * 85 := by rw [div_mul_eq_mul_div]
  have hchain_mid : ((List.range n).flatMap (pagePercents n hasRegions)).Chain'
      (fun a b => a ≤ b) :=
    chain_flatMap_of_bounds (pagePercents n hasRegions)
      (fun i => 10 + ((i : ℚ) / (n : ℚ)) * 85)
      (fun i => 10 + ((i : ℚ) / (n : ℚ)) * 85 + (85 / (n : ℚ)) * (3 / 5)) n
      (fun i h => pagePercents_chain n hasRegions i h)
      (fun i h => pagePercents_bounds n hasRegions i h)
      (fun i j hij hj => hstep i j hij hj)
  refine ⟨?_, rfl, ?_, ?_⟩
  · rw [progressPercents]
    apply List.Chain'.append
    · apply List.Chain'.append
      · simp only [List.chain'_cons, List.chain'_singleton, and_true]
        norm_num
      · exact hchain_mid
      · intro x hx y hy
        have hx5 : (5 : ℚ) = x := by simpa using hx
        have hy10 : 10 ≤ y :=
          (hmid y (List.mem_of_mem_head? hy)).1
        rw [← hx5]; linarith
    · simp only [List.chain'_cons, List.chain'_singleton, and_true]
      norm_num
    · intro x hx y hy
      have hy95 : (95 : ℚ) = y := by simpa using hy
      have hxm : x ∈ [(0 : ℚ), 5] ++ (List.range n).flatMap (pagePercents n hasRegions) :=
        List.mem_of_mem_getLast? hx
      rw [← hy95]
      rcases List.mem_append.mp hxm with hx05 | hxmid
      · rcases List.mem_cons.mp hx05 with h0 | h5
        · rw [h0]; norm_num
        · have : x = 5 := by simpa using h5
          rw [this]; norm_num
      · exact (hmid x hxmid).2
  · rw [progressPercents, List.getLast?_append_of_ne_nil _ (by simp)]
    rfl
  · rw [progressPercents, progressPercents]
    exact List.Sublist.append
      (List.Sublist.append (List.Sublist.refl _)
        (flatMap_sublist (fun i => pagePercents_sublist n hasRegions i) (List.range n)))
      (List.Sublist.refl _)

/-- An element stays in a list after setting a slot that did not hold it. -/
theorem mem_set_of_ne {α : Type} {l : List α} {a : α} {w : ℕ} (ha : a ∈ l)
    (hw : l[w]? ≠ some a) (v : α) : a ∈ l.set w v := by
  obtain ⟨m, hm, hma⟩ := List.getElem_of_mem ha
  have hmw : m ≠ w := by
    intro hcon
    exact hw (by rw [← hcon, List.getElem?_eq_getElem hm, hma])
  have : (l.set w v)[m]? = some a := by
    rw [List.getElem?_set_ne (Ne.symm hmw), List.getElem?_eq_getElem hm, hma]
  obtain ⟨hmlt, he⟩ := List.getElem?_eq_some_iff.mp this
  have hmem := List.getElem_mem hmlt
  rwa [he] at hmem

/-- The value written by an in-range set is in the result. -/
theorem mem_set_self {α : Type} (l : List α) (w : ℕ) (v : α) (h : w < l.length) :
    v ∈ l.set w v := by
  have hsome : (l.set w v)[w]? = some v := by
    rw [List.getElem?_set_self']
    simp [List.getElem?_eq_getElem h]
  obtain ⟨hw, he⟩ := List.getElem?_eq_some_iff.mp hsome
  have hmem := List.getElem_mem hw
  rwa [he] at hmem

/-- The initial pool state satisfies the invariant. -/
theorem poolInv_init (texts : List String) (f : String → String) :
    PoolInv texts f (initPoolState texts) := by
  unfold PoolInv initPoolState
  refine ⟨List.length_replicate _ _, List.length_replicate _ _, Nat.zero_le _,
    ?_, ?_, ?_, ?_⟩
  · intro i _ hi
    simp [List.getElem?_replicate, hi]
  · intro i hi
    exact absurd hi (Nat.not_lt_zero i)
  · intro i hm
    exact absurd (List.eq_of_mem_replicate hm) (by simp)
  · intro hm
    exact absurd (List.eq_of_mem_replicate hm) (by simp)

/-- Every pool step preserves the invariant. -/
theorem poolInv_step (texts : List String) (f : String → String)
    (s s' : PoolState) (w : ℕ) (hs : poolStep texts f s w = some s')
    (hinv : PoolInv texts f s) : PoolInv texts f s' := by
  obtain ⟨hwlen, hrlen, hpos, hunwritten, hwritten, hheld, hdone⟩ := hinv
  rw [poolStep] at hs
  cases hph : s.workers[w]? with
  | none => rw [hph] at hs; exact Option.noConfusion hs
  | some ph =>
    rw [hph] at hs
    have hwlt : w < s.workers.length := (List.getElem?_eq_some_iff.mp hph).1
    cases ph with
    | done => exact Option.noConfusion hs
    | start =>
      by_cases hp : s.pos < texts.length
      · rw [if_pos hp] at hs
        obtain rfl := Option.some_inj.mp hs
        unfold PoolInv
        dsimp only
        refine ⟨by rw [List.length_set]; exact hwlen, hrlen, by omega, ?_, ?_, ?_, ?_⟩
        · intro i hi hilen
          exact hunwritten i (by omega) hilen
        · intro i hi
          rcases Nat.lt_succ_iff_lt_or_eq.mp hi with hlt | heq
          · rcases hwritten i hlt with hw' | hh
            · exact Or.inl hw'
            · refine Or.inr (mem_set_of_ne hh ?_ _)
              rw [hph]
              simp
          · subst heq
            exact Or.inr (mem_set_self _ _ _ hwlt)
        · intro i hm
          rcases List.mem_or_eq_of_mem_set hm with hold | heq
          · exact Nat.lt_succ_of_lt (hheld i hold)
          · cases heq
            exact Nat.lt_succ_self _
        · intro hm
          rcases List.mem_or_eq_of_mem_set hm with hold | heq
          · exact absurd (hdone hold) (by omega)
          · exact WorkerPhase.noConfusion heq
      · rw [if_neg hp] at hs
        obtain rfl := Option.some_inj.mp hs
        unfold PoolInv
        dsimp only
        refine ⟨by rw [List.length_set]; exact hwlen, hrlen, hpos, hunwritten, ?_, ?_, ?_⟩
        · intro i hi
          rcases hwritten i hi with hw' | hh
          · exact Or.inl hw'
          · refine Or.inr (mem_set_of_ne hh ?_ _)
            rw [hph]
            simp
        · intro i hm
          rcases List.mem_or_eq_of_mem_set hm with hold | heq
          · exact hheld i hold
          · exact WorkerPhase.noConfusion heq
        · intro _
          omega
    | holding i =>
      have hmemh : WorkerPhase.holding i ∈ s.workers := by
        obtain ⟨hlt, he⟩ := List.getElem?_eq_some_iff.mp hph
        have hmem := List.getElem_mem hlt
        rwa [he] at hmem
      have hilt : i < s.pos := hheld i hmemh
      have hireslen : i < s.results.length := by omega
      dsimp only at hs
      by_cases hp : s.pos < texts.length
      · rw [if_pos hp] at hs
        obtain rfl := Option.some_inj.mp hs
        unfold PoolInv
        dsimp only
        refine ⟨by rw [List.length_set]; exact hwlen,
          by rw [List.length_set]; exact hrlen, by omega, ?_, ?_, ?_, ?_⟩
        · intro j hj hjlen
          rw [List.getElem?_set_ne (by omega : i ≠ j)]
          exact hunwritten j (by omega) hjlen
        · intro j hj
          by_cases hji : j = i
          · subst hji
            refine Or.inl ?_
            rw [List.getElem?_set_self']
            simp [List.getElem?_eq_getElem hireslen]
          · rcases Nat.lt_succ_iff_lt_or_eq.mp hj with hlt | heq
            · rcases hwritten j hlt with hw' | hh
              · refine Or.inl ?_
                rw [List.getElem?_set_ne (by omega : i ≠ j)]
                exact hw'
              · refine Or.inr (mem_set_of_ne hh ?_ _)
                rw [hph]
                simp
                omega
            · subst heq
              exact Or.inr (mem_set_self _ _ _ hwlt)
        · intro j hm
          rcases List.mem_or_eq_of_mem_set hm with hold | heq
          · exact Nat.lt_succ_of_lt (hheld j hold)
          · cases heq
            exact Nat.lt_succ_self _
        · intro hm
          rcases List.mem_or_eq_of_mem_set hm with hold | heq
          · exact absurd (hdone hold) (by omega)
          · exact WorkerPhase.noConfusion heq
      · rw [if_neg hp] at hs
        obtain rfl := Option.some_inj.mp hs
        unfold PoolInv
        dsimp only
        refine ⟨by rw [List.length_set]; exact hwlen,
          by rw [List.length_set]; exact hrlen, hpos, ?_, ?_, ?_, ?_⟩
        · intro j hj hjlen
          rw [List.getElem?_set_ne (by omega : i ≠ j)]
          exact hunwritten j hj hjlen
        · intro j hj
          by_cases hji : j = i
          · subst hji
            refine Or.inl ?_
            rw [List.getElem?_set_self']
            simp [List.getElem?_eq_getElem hireslen]
          · rcases hwritten j hj with hw' | hh
            · refine Or.inl ?_
              rw [List.getElem?_set_ne (by omega : i ≠ j)]
              exact hw'
            · refine Or.inr (mem_set_of_ne hh ?_ _)
              rw [hph]
              simp
              omega
        · intro j hm
          rcases List.mem_or_eq_of_mem_set hm with hold | heq
          · exact hheld j hold
          · exact WorkerPhase.noConfusion heq
        · intro _
          omega

/-- The invariant holds in every state the pool can reach. -/
theorem poolInv_reachable (texts : List String) (f : String → String)
    (s : PoolState)
    (h : Relation.ReflTransGen (PoolStepRel texts f) (initPoolState texts) s) :
    PoolInv texts f s := by
  induction h with
  | refl => exact poolInv_init texts f
  | tail _ hstep ih =>
    obtain ⟨w, hw⟩ := hstep
    exact poolInv_step _ _ _ _ w hw ih

/-- The Google translateBatch loop is exactly a map over the inputs. -/
theorem googleTranslateBatch_eq_map (f : String → String) (texts : List String) :
    googleTranslateBatch f texts = texts.map f := by
  rw [googleTranslateBatch]
  suffices h : ∀ acc, texts.foldl (fun results text => results ++ [f text]) acc =
      acc ++ texts.map f by
    simpa using h []
  induction texts with
  | nil => intro acc; simp
  | cons a t ih =>
    intro acc
    rw [List.foldl_cons, ih, List.map_cons]
    simp

/-- Claim C6: both translator variants return one output per input at
the matching index. The Google loop is a map; for the LLM pool, any
interleaving of the min(5, n) workers that runs until all workers have
returned fills the results array with exactly the translation of input
i at slot i — each index is claimed by one worker exactly once. -/
theorem translateBatch_shape :
    (∀ (f : String → String) (texts : List String),
      googleTranslateBatch f texts = texts.map f) ∧
    (∀ (texts : List String) (f : String → String) (s : PoolState),
      Relation.ReflTransGen (PoolStepRel texts f) (initPoolState texts) s →
      PoolFinished s →
      s.results = texts.map (fun t => some (f t)) ∧
        s.results.length = texts.length) := by
  refine ⟨googleTranslateBatch_eq_map, ?_⟩
  intro texts f s hreach hfin
  obtain ⟨hwlen, hrlen, hpos, hunwritten, hwritten, hheld, hdone⟩ :=
    poolInv_reachable texts f s hreach
  suffices hres : s.results = texts.map (fun t => some (f t)) by
    exact ⟨hres, by rw [hres, List.length_map]⟩
  by_cases hn : texts.length = 0
  · have h1 : s.results = [] := List.eq_nil_of_length_eq_zero (by omega)
    have h2 : texts = [] := List.eq_nil_of_length_eq_zero hn
    rw [h1, h2]
    rfl
  · have hk : 0 < min CONCURRENCY_LIMIT texts.length := by
      rw [CONCURRENCY_LIMIT]
      omega
    have hwne : s.workers ≠ [] := by
      intro hcon
      rw [hcon] at hwlen
      simp at hwlen
      omega
    obtain ⟨p, hp⟩ := List.exists_mem_of_ne_nil s.workers hwne
    have hpd : p = WorkerPhase.done := hfin p hp
    have hposn : s.pos = texts.length := hdone (hpd ▸ hp)
    apply List.ext_getElem?
    intro m
    by_cases hm : m < texts.length
    · rcases hwritten m (by omega) with hw | hh
      · rw [hw, List.getElem?_map, List.getElem?_eq_getElem hm]
        rw [List.getD_eq_getElem texts "" hm]
        rfl
      · exact absurd (hfin _ hh) (by simp)
    · rw [List.getElem?_eq_none (by omega : s.results.length ≤ m),
        List.getElem?_eq_none (by rw [List.length_map]; omega)]

set_option maxRecDepth 2000 in
/-- Witness for C6: the Google loop on one input, and a concrete
two-step execution of a single worker on the one-element batch
`["x"]` reaching the all-done state with its slot filled. -/
theorem translateBatch_shape_witness :
    googleTranslateBatch (fun t => t) ["a"] = ["a"].map (fun t => t) ∧
      ({ pos := 1, workers := [WorkerPhase.done], results := [some "x"] } :
          PoolState).results = ["x"].map (fun t => some ((fun t => t) t)) :=
  ⟨translateBatch_shape.1 (fun t => t) ["a"],
   (translateBatch_shape.2 ["x"] (fun t => t)
      { pos := 1, workers := [WorkerPhase.done], results := [some "x"] }
      (Relation.ReflTransGen.tail
        (Relation.ReflTransGen.tail (Relation.ReflTransGen.refl)
          (⟨0, by decide⟩ :
            PoolStepRel ["x"] (fun t => t) (initPoolState ["x"])
              { pos := 1, workers := [WorkerPhase.holding 0], results := [none] }))
        (⟨0, by decide⟩ :
          PoolStepRel ["x"] (fun t => t)
            { pos := 1, workers := [WorkerPhase.holding 0], results := [none] }
            { pos := 1, workers := [WorkerPhase.done], results := [some "x"] }))
      (by decide)).1⟩

end Pdf2zh
